import Mathlib

/-!
# Verification of vault-kube-cloud-credentials core logic

Shallow embedding of the core logic of the `vault-kube-cloud-credentials`
repository: the renewal-jitter scheduler of the credential sidecar, the
authorization rule engines for the AWS and GCP secret backends, the key
codec used to name objects in Vault, and the reconciler's removal /
garbage-collection paths.

Go strings are modelled as `List Char` (one `Char` per rune; all inputs of
interest are ASCII, where Go's byte-wise and rune-wise views coincide).
Fallible Go functions returning `(T, error)` are modelled as
`Except Unit T` (the error payload is irrelevant to the properties).
-/

/-- Go strings are modelled as lists of characters. -/
abbrev Str := List Char

deriving instance DecidableEq for Except

/-! ## Renewal jitter (`sidecar/util.go`, `sleepDuration`)

```go
func sleepDuration(leaseDuration time.Duration, rand *rand.Rand) time.Duration {
    return time.Duration((float64(leaseDuration.Nanoseconds()) * 2 / 3) * (rand.Float64() + 1.50) / 2)
}
```

`float64` arithmetic is modelled as exact rational arithmetic; the final
conversion `time.Duration(...)` (float64 → int64) truncates toward zero.
-/

/-- Go's float64 → int64 conversion: truncation toward zero. -/
def truncTowardZero (q : ℚ) : ℤ :=
  if q < 0 then ⌈q⌉ else ⌊q⌋

/-- Embedding of `sleepDuration`. `leaseNs` is `leaseDuration.Nanoseconds()`,
`r` is the value returned by `rand.Float64()` (a value in `[0,1)`). The
result is the returned `time.Duration` in nanoseconds. Exact rationals
idealize the float64 arithmetic: an IEEE evaluation can differ from this
value by rounding (for example `r + 1.50` rounds up to exactly `2.5` at
the largest achievable `r`), so only bounds that are stable under that
rounding are claimed about the program. -/
def sleepDuration (leaseNs : ℤ) (r : ℚ) : ℤ :=
  truncTowardZero ((((leaseNs : ℚ) * 2) / 3) * (r + 3/2) / 2)

/-! ## Key codec (`operator/backend.go`, `makeKey` / `parseKey`) -/

/-- Go `strings.Split(s, sep)` for a single-character separator. -/
def splitSep (sep : Char) : Str → List Str
  | [] => [[]]
  | c :: cs =>
    if c = sep then [] :: splitSep sep cs
    else
      match splitSep sep cs with
      | [] => [[c]]
      | w :: ws => (c :: w) :: ws

/-- Join a list of segments with a single-character separator
(inverse of `splitSep`). -/
def joinSep (sep : Char) : List Str → Str
  | [] => []
  | [x] => x
  | x :: xs => x ++ sep :: joinSep sep xs

/-- Embedding of `backendReconciler.makeKey`:
`r.prefix + "_" + r.backend.String() + "_" + namespace + "_" + name`. -/
def makeKey (pfx backend ns nm : Str) : Str :=
  pfx ++ '_' :: backend ++ '_' :: ns ++ '_' :: nm

/-- Embedding of `backendReconciler.parseKey`: split on `"_"`; succeed only
on exactly four parts whose first two equal the configured prefix and the
backend name. -/
def parseKey (pfx backend : Str) (key : Str) : Str × Str × Bool :=
  match splitSep '_' key with
  | [a, b, ns, nm] =>
    if a = pfx ∧ b = backend then (ns, nm, true) else ([], [], false)
  | _ => ([], [], false)

/-! ### Codec lemmas -/

theorem splitSep_ne_nil (sep : Char) (xs : Str) : splitSep sep xs ≠ [] := by
  cases xs with
  | nil => simp [splitSep]
  | cons c cs =>
    simp only [splitSep]
    split
    · simp
    · split <;> simp

theorem splitSep_of_not_mem (sep : Char) (xs : Str) (h : sep ∉ xs) :
    splitSep sep xs = [xs] := by
  induction xs with
  | nil => rfl
  | cons c cs ih =>
    simp only [List.mem_cons, not_or] at h
    have hc : ¬ c = sep := fun hcs => h.1 hcs.symm
    simp only [splitSep, if_neg hc, ih h.2]

theorem splitSep_append_sep (sep : Char) (xs ys : Str) (h : sep ∉ xs) :
    splitSep sep (xs ++ sep :: ys) = xs :: splitSep sep ys := by
  induction xs with
  | nil => simp [splitSep]
  | cons c cs ih =>
    simp only [List.mem_cons, not_or] at h
    have hc : ¬ c = sep := fun hcs => h.1 hcs.symm
    simp only [List.cons_append, splitSep, if_neg hc, ih h.2]
    have := splitSep_ne_nil sep (cs ++ sep :: ys)
    cases hsp : splitSep sep (cs ++ sep :: ys) with
    | nil => exact absurd hsp this
    | cons w ws => simp_all

theorem joinSep_splitSep (sep : Char) (k : Str) :
    joinSep sep (splitSep sep k) = k := by
  induction k with
  | nil => rfl
  | cons c cs ih =>
    simp only [splitSep]
    split
    · rename_i hc
      subst hc
      cases hsp : splitSep c cs with
      | nil => exact absurd hsp (splitSep_ne_nil c cs)
      | cons w ws =>
        rw [hsp] at ih
        simp [joinSep, ih]
    · cases hsp : splitSep sep cs with
      | nil => exact absurd hsp (splitSep_ne_nil sep cs)
      | cons w ws =>
        rw [hsp] at ih
        cases ws with
        | nil => simpa [joinSep] using congrArg (c :: ·) ih
        | cons w' ws' => simpa [joinSep] using congrArg (c :: ·) ih

theorem makeKey_norm (pfx backend ns nm : Str) :
    makeKey pfx backend ns nm =
      pfx ++ '_' :: (backend ++ '_' :: (ns ++ '_' :: nm)) := by
  simp [makeKey]

theorem splitSep_makeKey (pfx backend ns nm : Str)
    (hp : '_' ∉ pfx) (hb : '_' ∉ backend) (hn : '_' ∉ ns)
    (hi : '_' ∉ nm) :
    splitSep '_' (makeKey pfx backend ns nm) =
      [pfx, backend, ns, nm] := by
  rw [makeKey_norm, splitSep_append_sep _ _ _ hp, splitSep_append_sep _ _ _ hb,
    splitSep_append_sep _ _ _ hn, splitSep_of_not_mem _ _ hi]

/-- A key that parses was produced by `makeKey` for the parsed pair. -/
theorem parseKey_inv (pfx backend key ns nm : Str)
    (h : parseKey pfx backend key = (ns, nm, true)) :
    key = makeKey pfx backend ns nm := by
  have hk := joinSep_splitSep '_' key
  unfold parseKey at h
  split at h
  · rename_i a b n2 m2 heq
    split at h
    · rename_i hcond
      simp only [Prod.mk.injEq] at h
      obtain ⟨h1, h2, -⟩ := h
      subst h1 h2
      rw [heq] at hk
      rw [← hk, makeKey_norm]
      simp [joinSep, hcond.1, hcond.2]
    · simp at h
  · simp at h

/-! ## Glob matching (Go `path/filepath.Match`, unix build)

The rule engines call Go's `filepath.Match`. This section embeds that
function (with `Separator = '/'` and backslash escaping enabled, as on
unix). Rune decoding is the identity on the `List Char` model. The Go
loops that walk the pattern are expressed with an explicit recursion bound
that is always sufficient, since every iteration consumes at least one
pattern character.
-/

/-- The leading `*`s of a pattern: whether there is at least one, and the
remainder (the `star` accumulation of Go's `scanChunk`). -/
def dropLeadStars : Str → Bool × Str
  | '*' :: rest => (true, (dropLeadStars rest).2)
  | p => (false, p)

/-- The chunk-delimiting scan of Go's `scanChunk`: walk the pattern until
an unbracketed `*`, skipping escaped characters, tracking `inrange`. -/
def chunkScan : Str → Bool → Str × Str
  | [], _ => ([], [])
  | '\\' :: c :: rest, inrange =>
    let r := chunkScan rest inrange
    ('\\' :: c :: r.1, r.2)
  | ['\\'], _ => (['\\'], [])
  | '[' :: rest, _ =>
    let r := chunkScan rest true
    ('[' :: r.1, r.2)
  | ']' :: rest, _ =>
    let r := chunkScan rest false
    (']' :: r.1, r.2)
  | '*' :: rest, inrange =>
    if inrange then
      let r := chunkScan rest inrange
      ('*' :: r.1, r.2)
    else ([], '*' :: rest)
  | c :: rest, inrange =>
    let r := chunkScan rest inrange
    (c :: r.1, r.2)

/-- Embedding of Go's `scanChunk`: split a pattern into a leading-star
flag, the next chunk, and the rest of the pattern. -/
def scanChunk (pattern : Str) : Bool × Str × Str :=
  let sp := dropLeadStars pattern
  let cr := chunkScan sp.2 false
  (sp.1, cr.1, cr.2)

/-- Embedding of Go's `getEsc`: read a (possibly escaped) character from a
character-class body; malformed classes are `ErrBadPattern`. -/
def getEsc : Str → Except Unit (Char × Str)
  | [] => .error ()
  | c :: rest =>
    if c = '-' ∨ c = ']' then .error ()
    else if c = '\\' then
      match rest with
      | [] => .error ()
      | d :: rest' => if rest' = [] then .error () else .ok (d, rest')
    else if rest = [] then .error () else .ok (c, rest)

/-- The range-parsing loop of the `[` case of Go's `matchChunk`: consume
`lo(-hi)` pairs until a closing `]`, accumulating whether `r` fell in any
range and how many ranges were seen. -/
def matchRanges (r : Char) : Nat → Str → Bool → Nat → Except Unit (Bool × Str)
  | 0, _, _, _ => .error ()
  | bound+1, chunk, macc, nrange =>
    if chunk.head? = some ']' ∧ 0 < nrange then
      .ok (macc, chunk.tail)
    else
      match getEsc chunk with
      | .error e => .error e
      | .ok (lo, ch1) =>
        match ch1 with
        | '-' :: ch1' =>
          match getEsc ch1' with
          | .error e => .error e
          | .ok (hi, ch2) =>
            matchRanges r bound ch2 (macc || decide (lo ≤ r ∧ r ≤ hi)) (nrange + 1)
        | _ =>
          matchRanges r bound ch1 (macc || decide (lo ≤ r ∧ r ≤ lo)) (nrange + 1)

/-- Embedding of Go's `matchChunk`: match a chunk against the head of `s`,
returning the unmatched rest on success; after a mismatch the chunk is
still consumed so that malformed patterns are reported. `none` stands for
Go's `ok = false` with `err = nil`. -/
def matchChunk : Nat → Str → Str → Bool → Except Unit (Option Str)
  | 0, _, _, _ => .error ()
  | bound+1, chunk, s, failed0 =>
    match chunk with
    | [] => .ok (if failed0 then none else some s)
    | c :: ch =>
      let failed := failed0 || s.isEmpty
      if c = '[' then
        let rs : Char × Str :=
          if failed then (Char.ofNat 0, s)
          else (s.headD (Char.ofNat 0), s.tail)
        let neg : Bool × Str :=
          match ch with
          | '^' :: chrest => (true, chrest)
          | _ => (false, ch)
        match matchRanges rs.1 (neg.2.length + 1) neg.2 false 0 with
        | .error e => .error e
        | .ok (m, ch2) => matchChunk bound ch2 rs.2 (failed || (m == neg.1))
      else if c = '?' then
        if failed then matchChunk bound ch s failed
        else
          match s with
          | [] => matchChunk bound ch [] true
          | d :: s' => matchChunk bound ch s' (d == '/')
      else if c = '\\' then
        match ch with
        | [] => .error ()
        | d :: ch' =>
          if failed then matchChunk bound ch' s failed
          else
            match s with
            | [] => matchChunk bound ch' [] true
            | e :: s' => matchChunk bound ch' s' (d != e)
      else
        if failed then matchChunk bound ch s failed
        else
          match s with
          | [] => matchChunk bound ch [] true
          | e :: s' => matchChunk bound ch s' (c != e)

/-- The `star` retry loop of Go's `Match`: try to match the chunk at each
successive position of `name`, not crossing a `/`. `restEmpty` is whether
the remaining pattern is empty (in which case a match must consume all of
`name`). -/
def starLoop (chunk : Str) (restEmpty : Bool) : Str → Except Unit (Option Str)
  | [] => .ok none
  | c :: name' =>
    if c = '/' then .ok none
    else
      match matchChunk (chunk.length + 1) chunk name' false with
      | .error e => .error e
      | .ok (some t) =>
        if restEmpty && !t.isEmpty then starLoop chunk restEmpty name'
        else .ok (some t)
      | .ok none => starLoop chunk restEmpty name'

/-- The final well-formedness scan of Go's `Match`: before returning
`false`, check the remaining chunks of the pattern for syntax errors. -/
def validateChunks : Nat → Str → Except Unit Unit
  | 0, _ => .error ()
  | bound+1, pattern =>
    match pattern with
    | [] => .ok ()
    | _ :: _ =>
      let scr := scanChunk pattern
      match matchChunk (scr.2.1.length + 1) scr.2.1 [] false with
      | .error e => .error e
      | .ok _ => validateChunks bound scr.2.2

/-- The main loop of Go's `filepath.Match`. -/
def goMatchAux : Nat → Str → Str → Except Unit Bool
  | 0, _, _ => .error ()
  | bound+1, pattern, name =>
    match pattern with
    | [] => .ok name.isEmpty
    | _ :: _ =>
      let scr := scanChunk pattern
      let star := scr.1
      let chunk := scr.2.1
      let rest := scr.2.2
      if star && chunk.isEmpty then .ok (name.all (· != '/'))
      else
        match matchChunk (chunk.length + 1) chunk name false with
        | .error e => .error e
        | .ok (some t) =>
          if t.isEmpty || !rest.isEmpty then goMatchAux bound rest t
          else
            -- rest is empty but there is a leftover of name: fall through to
            -- the star loop; the final validity scan of `rest = []` is trivial
            if star then
              match starLoop chunk rest.isEmpty name with
              | .error e => .error e
              | .ok (some t') => goMatchAux bound rest t'
              | .ok none => .ok false
            else .ok false
        | .ok none =>
          if star then
            match starLoop chunk rest.isEmpty name with
            | .error e => .error e
            | .ok (some t') => goMatchAux bound rest t'
            | .ok none =>
              match validateChunks (rest.length + 1) rest with
              | .error e => .error e
              | .ok _ => .ok false
          else
            match validateChunks (rest.length + 1) rest with
            | .error e => .error e
            | .ok _ => .ok false

/-- Embedding of Go's `filepath.Match pattern name`. -/
def goMatch (pattern name : Str) : Except Unit Bool :=
  goMatchAux (pattern.length + 1) pattern name

/-! ## AWS rule engine (`operator/aws.go`) -/

/-- The shared loop shape of `AWSRule.matchesNamespace`,
`AWSRule.matchesRoleName` and `gcpRule.matchesNamespace`: try each pattern
in order with `filepath.Match`, propagating a pattern error and stopping
at the first match. -/
def matchAny : List Str → Str → Except Unit Bool
  | [], _ => .ok false
  | p :: ps, s =>
    match goMatch p s with
    | .error e => .error e
    | .ok true => .ok true
    | .ok false => matchAny ps s

/-- Embedding of `AWSRule`. -/
structure AWSRule where
  NamespacePatterns : List Str
  RoleNamePatterns : List Str
  AccountIDs : List Str
deriving DecidableEq

/-- Embedding of `arn.ARN` from the AWS SDK. -/
structure ARN where
  Partition : Str
  Service : Str
  Region : Str
  AccountID : Str
  Resource : Str
deriving DecidableEq

/-- Go's `strings.SplitN(s, sep, n)` for a single-character separator:
split at the first occurrence of `sep`, if any. -/
def breakAtSep (sep : Char) : Str → Option (Str × Str)
  | [] => none
  | c :: cs =>
    if c = sep then some ([], cs)
    else
      match breakAtSep sep cs with
      | none => none
      | some (a, b) => some (c :: a, b)

/-- Go's `strings.SplitN(s, sep, n)` for a single-character separator:
at most `n` segments, the last one unsplit. -/
def splitNSep (sep : Char) : Nat → Str → List Str
  | 0, _ => []
  | 1, s => [s]
  | n+2, s =>
    match breakAtSep sep s with
    | none => [s]
    | some (a, b) => a :: splitNSep sep (n+1) b

/-- Embedding of `arn.Parse` from the AWS SDK: require the `"arn:"`
prefix, split on `":"` into at most 6 sections, require exactly 6. -/
def arnParse (s : Str) : Except Unit ARN :=
  if ['a', 'r', 'n', ':'].isPrefixOf s then
    match splitNSep ':' 6 s with
    | [_, pt, sv, rg, aid, res] => .ok ⟨pt, sv, rg, aid, res⟩
    | _ => .error ()
  else .error ()

/-- Embedding of `AWSRule.matchesAccountID`: true if the account ID is in
the allow-list, or if the list is empty. -/
def AWSRule.matchesAccountID (ar : AWSRule) (accountID : Str) : Bool :=
  ar.AccountIDs.contains accountID || ar.AccountIDs.isEmpty

/-- Embedding of `AWSRule.matchesNamespace`. -/
def AWSRule.matchesNamespace (ar : AWSRule) (ns : Str) : Except Unit Bool :=
  matchAny ar.NamespacePatterns ns

/-- Embedding of `AWSRule.matchesRoleName`. -/
def AWSRule.matchesRoleName (ar : AWSRule) (roleName : Str) : Except Unit Bool :=
  matchAny ar.RoleNamePatterns roleName

/-- Embedding of `AWSRule.allows`: a rule allows a namespace to assume a
role ARN when the account ID, the namespace and the role name (the
`Resource` section after a literal `role/`) all pass. -/
def AWSRule.allows (ar : AWSRule) (ns : Str) (roleArn : ARN) : Except Unit Bool := do
  let accountIDAllowed := ar.matchesAccountID roleArn.AccountID
  let namespaceAllowed ← ar.matchesNamespace ns
  let roleAllowed ←
    if ['r', 'o', 'l', 'e', '/'].isPrefixOf roleArn.Resource then
      ar.matchesRoleName (roleArn.Resource.drop 5)
    else
      pure false
  pure (accountIDAllowed && namespaceAllowed && roleAllowed)

/-- Embedding of `AWSRules`. -/
abbrev AWSRules := List AWSRule

/-- The rule loop of `AWSRules.allow`: true at the first rule that allows,
propagating rule errors. -/
def awsAnyAllowed (ns : Str) (a : ARN) : List AWSRule → Except Unit Bool
  | [] => .ok false
  | r :: rs => do
    let allowed ← r.allows ns a
    if allowed then pure true else awsAnyAllowed ns a rs

/-- Embedding of `AWSRules.allow`: parse the role ARN, evaluate the rules
in order, and fall back to `len(ar) == 0` when no rule matched. -/
def AWSRules.allow (ar : AWSRules) (ns roleArn : Str) : Except Unit Bool := do
  let a ← arnParse roleArn
  let found ← awsAnyAllowed ns a ar
  pure (found || ar.isEmpty)

/-! ## GCP rule engine (`operator/gcp.go`) -/

/-- Embedding of `gcpRule`. -/
structure gcpRule where
  NamespacePatterns : List Str
  Projects : List Str
deriving DecidableEq

/-- Embedding of `gcpRule.matchesNamespace`. -/
def gcpRule.matchesNamespace (gr : gcpRule) (ns : Str) : Except Unit Bool :=
  matchAny gr.NamespacePatterns ns

/-- Embedding of `gcpRule.matchesProject`: literal membership in the
project list. -/
def gcpRule.matchesProject (gr : gcpRule) (project : Str) : Bool :=
  gr.Projects.contains project

/-- Embedding of `gcpRule.allows`. -/
def gcpRule.allows (gr : gcpRule) (ns project : Str) : Except Unit Bool := do
  let namespaceAllowed ← gr.matchesNamespace ns
  pure (namespaceAllowed && gr.matchesProject project)

/-- Embedding of `gcpRules`. -/
abbrev gcpRules := List gcpRule

/-- The rule loop of `gcpRules.allow`. -/
def gcpAnyAllowed (ns project : Str) : List gcpRule → Except Unit Bool
  | [] => .ok false
  | r :: rs => do
    let allowed ← r.allows ns project
    if allowed then pure true else gcpAnyAllowed ns project rs

/-- Embedding of `gcpRules.allow`: evaluate the rules in order and fall
back to `len(gr) == 0` when no rule matched. -/
def gcpRules.allow (gr : gcpRules) (ns project : Str) : Except Unit Bool := do
  let found ← gcpAnyAllowed ns project gr
  pure (found || gr.isEmpty)

/-! ## Reconciler removal and garbage collection (`operator/backend.go`)

`removeFromVault` and `garbageCollect` issue deletions against Vault.
Vault is an external collaborator, so the deletions are modelled as a
trace of attempted operations, and each deletion's outcome is supplied by
a failure oracle `fail` (the transport can fail any call). The
`secretBackend` interface is abstracted by the backend's name and its
`admitEvent` predicate, exactly the two capabilities these functions use.
-/

/-- The three kinds of objects the reconciler manages for one key:
the secret-backend role (`<path>/roles/<key>`), the kubernetes auth role
(`auth/<backend>/role/<key>`) and the policy (`sys/policy/<key>`). -/
inductive VaultObjKind
  | backendRole
  | kubeAuthRole
  | policy
deriving DecidableEq, Repr

/-- One attempted deletion in the trace of `removeFromVault`. -/
structure VaultOp where
  kind : VaultObjKind
  key : Str
deriving DecidableEq, Repr

/-- Embedding of `backendReconciler.removeFromVault`: delete the backend
role, then the kubernetes auth role, then the policy, stopping at the
first failure. Returns the trace of attempted deletions and whether the
whole sequence succeeded (`false` is Go's non-nil error). -/
def removeFromVault (fail : VaultObjKind → Str → Bool) (pfx backend ns nm : Str) :
    List VaultOp × Bool :=
  if fail .backendRole (makeKey pfx backend ns nm) then
    ([⟨.backendRole, makeKey pfx backend ns nm⟩], false)
  else if fail .kubeAuthRole (makeKey pfx backend ns nm) then
    ([⟨.backendRole, makeKey pfx backend ns nm⟩,
      ⟨.kubeAuthRole, makeKey pfx backend ns nm⟩], false)
  else if fail .policy (makeKey pfx backend ns nm) then
    ([⟨.backendRole, makeKey pfx backend ns nm⟩,
      ⟨.kubeAuthRole, makeKey pfx backend ns nm⟩,
      ⟨.policy, makeKey pfx backend ns nm⟩], false)
  else
    ([⟨.backendRole, makeKey pfx backend ns nm⟩,
      ⟨.kubeAuthRole, makeKey pfx backend ns nm⟩,
      ⟨.policy, makeKey pfx backend ns nm⟩], true)

/-- A kubernetes `ServiceAccount` as the reconciler sees it. -/
structure KubeServiceAccount where
  Namespace : Str
  Name : Str
  Annotations : List (Str × Str)

/-- Embedding of `backendReconciler.hasServiceAccount`: whether a service
account with this namespace and name exists in the cluster and is
currently admitted by the backend (`adm` is `secretBackend.admitEvent`). -/
def hasServiceAccount (adm : Str → Str → List (Str × Str) → Bool)
    (serviceAccounts : List KubeServiceAccount) (ns nm : Str) : Bool :=
  serviceAccounts.any fun sa =>
    sa.Namespace == ns && sa.Name == nm && adm sa.Namespace sa.Name sa.Annotations

/-- Embedding of `backendReconciler.garbageCollect`: walk the listed keys;
a key that parses as owned (via `parseKey`) and has no live, admitted
service account is removed with `removeFromVault`; other keys are
skipped. A failing removal aborts the walk with an error, like the Go
code's early `return`. -/
def garbageCollect (adm : Str → Str → List (Str × Str) → Bool)
    (fail : VaultObjKind → Str → Bool)
    (serviceAccounts : List KubeServiceAccount)
    (pfx backend : Str) : List Str → List VaultOp × Bool
  | [] => ([], true)
  | k :: ks =>
    if (parseKey pfx backend k).2.2 then
      if hasServiceAccount adm serviceAccounts (parseKey pfx backend k).1
          (parseKey pfx backend k).2.1 then
        garbageCollect adm fail serviceAccounts pfx backend ks
      else
        if (removeFromVault fail pfx backend (parseKey pfx backend k).1
            (parseKey pfx backend k).2.1).2 then
          ((removeFromVault fail pfx backend (parseKey pfx backend k).1
              (parseKey pfx backend k).2.1).1 ++
            (garbageCollect adm fail serviceAccounts pfx backend ks).1,
           (garbageCollect adm fail serviceAccounts pfx backend ks).2)
        else
          ((removeFromVault fail pfx backend (parseKey pfx backend k).1
              (parseKey pfx backend k).2.1).1, false)
    else garbageCollect adm fail serviceAccounts pfx backend ks

/-! ## Event admission filter (`backendReconciler.SetupWithManager`) -/

/-- The object metadata an event carries. -/
structure EventMeta where
  Namespace : Str
  Name : Str
  Annotations : List (Str × Str)

/-- The controller-runtime events the reconciler filters. -/
inductive WatchEvent
  | create (e : EventMeta)
  | delete (e : EventMeta)
  | generic (e : EventMeta)
  | update (metaOld metaNew : EventMeta)

/-- Embedding of the `predicate.Funcs` event filter installed by
`backendReconciler.SetupWithManager` (`adm` is
`secretBackend.admitEvent`). -/
def eventFilter (adm : Str → Str → List (Str × Str) → Bool) : WatchEvent → Bool
  | .create e => adm e.Namespace e.Name e.Annotations
  | .delete e => adm e.Namespace e.Name e.Annotations
  | .generic e => adm e.Namespace e.Name e.Annotations
  | .update o n =>
    adm o.Namespace o.Name o.Annotations || adm n.Namespace n.Name n.Annotations

/-! ## Claims about the renewal jitter -/

/-- C1, counterexample: for a 60-minute lease (3600000000000 ns) and the
random value `0.9`, the computed sleep duration is 48 minutes
(2880000000000 ns), which is not below 45 minutes (2700000000000 ns), so
the claimed interval `(20min, 45min)` is wrong. -/
theorem claim_C1_counterexample :
    sleepDuration 3600000000000 (9/10) = 2880000000000 ∧
    ¬ (sleepDuration 3600000000000 (9/10) < 2700000000000) := by
  have h : sleepDuration 3600000000000 (9/10) = 2880000000000 := by
    unfold sleepDuration truncTowardZero
    rw [show ((((3600000000000 : ℤ) : ℚ) * 2) / 3) * ((9/10 : ℚ) + 3/2) / 2
        = ((2880000000000 : ℤ) : ℚ) by norm_num]
    rw [if_neg (by norm_num), Int.floor_intCast]
  exact ⟨h, by rw [h]; norm_num⟩

/-- C1 (amended): for a lease duration of exactly 60 minutes and every
value of the uniform random source in `[0,1)`, the renewal sleep duration
computed by `sleepDuration` lies in `[30min, 50min]` and is never negative
or zero. (The bounds are inclusive because IEEE rounding lets the real
float64 program attain exactly 50 minutes at the largest achievable
random value, where `r + 1.50` rounds to exactly `2.5`; the rational
model stays strictly below it, so the inclusive bound holds of both.) -/
theorem claim_C1 (r : ℚ) (h0 : 0 ≤ r) (h1 : r < 1) :
    1800000000000 ≤ sleepDuration 3600000000000 r ∧
    sleepDuration 3600000000000 r ≤ 3000000000000 ∧
    0 < sleepDuration 3600000000000 r := by
  have hvlo : (((1800000000000 : ℤ) : ℚ)) ≤
      ((((3600000000000 : ℤ) : ℚ) * 2) / 3) * (r + 3/2) / 2 := by
    push_cast
    nlinarith
  have hvhi : ((((3600000000000 : ℤ) : ℚ) * 2) / 3) * (r + 3/2) / 2 <
      ((3000000000000 : ℤ) : ℚ) := by
    push_cast
    nlinarith
  have hnneg : ¬ (((((3600000000000 : ℤ) : ℚ) * 2) / 3) * (r + 3/2) / 2 < 0) := by
    push_cast
    nlinarith
  unfold sleepDuration truncTowardZero
  rw [if_neg hnneg]
  refine ⟨Int.le_floor.mpr hvlo, le_of_lt (Int.floor_lt.mpr hvhi), ?_⟩
  exact lt_of_lt_of_le (by norm_num) (Int.le_floor.mpr hvlo)

/-- C1, witness for the amended claim at `r = 1/2`. -/
theorem claim_C1_witness :
    1800000000000 ≤ sleepDuration 3600000000000 (1/2) ∧
    sleepDuration 3600000000000 (1/2) ≤ 3000000000000 ∧
    0 < sleepDuration 3600000000000 (1/2) :=
  claim_C1 (1/2) (by norm_num) (by norm_num)

/-- C9, counterexample: for the strictly positive lease duration of 1
nanosecond and random value `0`, the computed sleep duration is `0`
(the float value `0.5` truncates to zero nanoseconds), so the output is
not strictly positive on every positive lease duration. -/
theorem claim_C9_counterexample :
    (0 : ℤ) < 1 ∧ sleepDuration 1 0 = 0 := by
  refine ⟨by norm_num, ?_⟩
  unfold sleepDuration truncTowardZero
  rw [show ((((1 : ℤ) : ℚ) * 2) / 3) * ((0 : ℚ) + 3/2) / 2 = (1/2 : ℚ) by norm_num]
  rw [if_neg (by norm_num)]
  norm_num

/-- C9 (amended): for every lease duration of at least 2 nanoseconds and
every value of the uniform random source in `[0,1)`, the sleep duration
computed by `sleepDuration` is strictly positive and strictly less than
the full lease duration. -/
theorem claim_C9 (L : ℤ) (hL : 2 ≤ L) (r : ℚ) (h0 : 0 ≤ r) (h1 : r < 1) :
    0 < sleepDuration L r ∧ sleepDuration L r < L := by
  have hL' : (2 : ℚ) ≤ (L : ℚ) := by exact_mod_cast hL
  have hv1 : (((1 : ℤ) : ℚ)) ≤ (((L : ℚ) * 2) / 3) * (r + 3/2) / 2 := by
    push_cast
    nlinarith [mul_nonneg (by linarith : (0:ℚ) ≤ (L : ℚ) - 2) (by linarith : (0:ℚ) ≤ r)]
  have hvL : (((L : ℚ) * 2) / 3) * (r + 3/2) / 2 < (L : ℚ) := by
    nlinarith [mul_pos (by linarith : (0:ℚ) < (L : ℚ)) (by linarith : (0:ℚ) < 3 - 2 * r)]
  have hnneg : ¬ ((((L : ℚ) * 2) / 3) * (r + 3/2) / 2 < 0) := by
    push_cast at hv1
    nlinarith
  unfold sleepDuration truncTowardZero
  rw [if_neg hnneg]
  constructor
  · exact lt_of_lt_of_le (by norm_num) (Int.le_floor.mpr hv1)
  · exact Int.floor_lt.mpr hvL

/-- C9, witness for the amended claim at `L = 2`, `r = 0`. -/
theorem claim_C9_witness :
    0 < sleepDuration 2 0 ∧ sleepDuration 2 0 < 2 :=
  claim_C9 2 (by norm_num) 0 (by norm_num) (by norm_num)

/-! ## Claims about the key codec -/

/-- C2: for separator-free prefix, backend, namespace and name,
`parseKey` inverts `makeKey`; and any key that does not split into
exactly four `'_'`-separated segments whose first two segments are the
configured prefix and backend fails to parse. -/
theorem claim_C2 :
    (∀ pfx backend ns nm : Str,
      '_' ∉ pfx → '_' ∉ backend → '_' ∉ ns → '_' ∉ nm →
      parseKey pfx backend (makeKey pfx backend ns nm) = (ns, nm, true)) ∧
    (∀ pfx backend key : Str,
      (splitSep '_' key).length ≠ 4 ∨ (splitSep '_' key).take 2 ≠ [pfx, backend] →
      (parseKey pfx backend key).2.2 = false) := by
  constructor
  · intro pfx backend ns nm hp hb hn hi
    unfold parseKey
    rw [splitSep_makeKey pfx backend ns nm hp hb hn hi]
    simp
  · intro pfx backend key h
    unfold parseKey
    split
    · rename_i a b n2 m2 heq
      rw [heq] at h
      rcases h with h | h
      · simp at h
      · have hcond : ¬ (a = pfx ∧ b = backend) := by
          rintro ⟨h1, h2⟩
          subst h1
          subst h2
          simp [List.take] at h
        rw [if_neg hcond]
    · rfl

/-- C2, witness: round trip on a concrete key and rejection of a key with
too few segments. -/
theorem claim_C2_witness :
    parseKey ['v', 'k', 'c', 'c'] ['a', 'w', 's']
        (makeKey ['v', 'k', 'c', 'c'] ['a', 'w', 's'] ['t', 'm'] ['s', 'v']) =
      (['t', 'm'], ['s', 'v'], true) ∧
    (parseKey ['v', 'k', 'c', 'c'] ['a', 'w', 's'] ['f', 'o', 'o']).2.2 = false :=
  ⟨claim_C2.1 _ _ _ _ (by decide) (by decide) (by decide) (by decide),
   claim_C2.2 _ _ _ (by decide)⟩

/-! ## Claims about the reconciler removal path and event filter -/

/-- C7: `removeFromVault` deletes the backend role, then the kubernetes
auth role, then the policy, in that order; a failing step surfaces the
error and the remaining steps of that attempt are not performed. -/
theorem claim_C7 (fail : VaultObjKind → Str → Bool) (pfx backend ns nm : Str) :
    (fail .backendRole (makeKey pfx backend ns nm) = false →
      fail .kubeAuthRole (makeKey pfx backend ns nm) = false →
      fail .policy (makeKey pfx backend ns nm) = false →
      removeFromVault fail pfx backend ns nm =
        ([⟨.backendRole, makeKey pfx backend ns nm⟩,
          ⟨.kubeAuthRole, makeKey pfx backend ns nm⟩,
          ⟨.policy, makeKey pfx backend ns nm⟩], true)) ∧
    (fail .backendRole (makeKey pfx backend ns nm) = true →
      removeFromVault fail pfx backend ns nm =
        ([⟨.backendRole, makeKey pfx backend ns nm⟩], false)) ∧
    (fail .backendRole (makeKey pfx backend ns nm) = false →
      fail .kubeAuthRole (makeKey pfx backend ns nm) = true →
      removeFromVault fail pfx backend ns nm =
        ([⟨.backendRole, makeKey pfx backend ns nm⟩,
          ⟨.kubeAuthRole, makeKey pfx backend ns nm⟩], false)) ∧
    (fail .backendRole (makeKey pfx backend ns nm) = false →
      fail .kubeAuthRole (makeKey pfx backend ns nm) = false →
      fail .policy (makeKey pfx backend ns nm) = true →
      removeFromVault fail pfx backend ns nm =
        ([⟨.backendRole, makeKey pfx backend ns nm⟩,
          ⟨.kubeAuthRole, makeKey pfx backend ns nm⟩,
          ⟨.policy, makeKey pfx backend ns nm⟩], false)) := by
  refine ⟨fun h1 h2 h3 => ?_, fun h1 => ?_, fun h1 h2 => ?_, fun h1 h2 h3 => ?_⟩ <;>
    simp [removeFromVault, h1]
  · simp [h2, h3]
  · simp [h2]
  · simp [h2, h3]

/-- C7, witness: the full successful order and an abort after the second
step on a concrete key. -/
theorem claim_C7_witness :
    removeFromVault (fun _ _ => false) ['p'] ['b'] ['n'] ['m'] =
      ([⟨.backendRole, makeKey ['p'] ['b'] ['n'] ['m']⟩,
        ⟨.kubeAuthRole, makeKey ['p'] ['b'] ['n'] ['m']⟩,
        ⟨.policy, makeKey ['p'] ['b'] ['n'] ['m']⟩], true) ∧
    removeFromVault (fun k _ => k == VaultObjKind.kubeAuthRole) ['p'] ['b'] ['n'] ['m'] =
      ([⟨.backendRole, makeKey ['p'] ['b'] ['n'] ['m']⟩,
        ⟨.kubeAuthRole, makeKey ['p'] ['b'] ['n'] ['m']⟩], false) :=
  ⟨(claim_C7 _ _ _ _ _).1 rfl rfl rfl, (claim_C7 _ _ _ _ _).2.2.1 rfl rfl⟩

/-- C8: the installed event filter admits an update event exactly when
`admitEvent` holds for the old or the new annotation state, and admits
create, delete and generic events exactly when `admitEvent` holds for
that single event's namespace, name and annotations. -/
theorem claim_C8 (adm : Str → Str → List (Str × Str) → Bool) :
    (∀ o n, eventFilter adm (.update o n) =
      (adm o.Namespace o.Name o.Annotations || adm n.Namespace n.Name n.Annotations)) ∧
    (∀ e, eventFilter adm (.create e) = adm e.Namespace e.Name e.Annotations) ∧
    (∀ e, eventFilter adm (.delete e) = adm e.Namespace e.Name e.Annotations) ∧
    (∀ e, eventFilter adm (.generic e) = adm e.Namespace e.Name e.Annotations) :=
  ⟨fun _ _ => rfl, fun _ => rfl, fun _ => rfl, fun _ => rfl⟩

/-! ## Claims about the rule engines -/

theorem okBind {α β : Type} (a : α) (f : α → Except Unit β) :
    ((Except.ok a : Except Unit α) >>= f) = f a := rfl

theorem errBind {α β : Type} (f : α → Except Unit β) :
    ((Except.error () : Except Unit α) >>= f) = Except.error () := rfl

theorem awsAnyAllowed_all_false (ns : Str) (a : ARN) (rules : List AWSRule)
    (h : ∀ r ∈ rules, r.allows ns a = .ok false) :
    awsAnyAllowed ns a rules = .ok false := by
  induction rules with
  | nil => rfl
  | cons r rs ih =>
    have hr := h r (List.mem_cons_self r rs)
    unfold awsAnyAllowed
    rw [hr, okBind]
    simpa using ih fun r' hr' => h r' (List.mem_cons_of_mem _ hr')

theorem gcpAnyAllowed_all_false (ns project : Str) (rules : List gcpRule)
    (h : ∀ r ∈ rules, r.allows ns project = .ok false) :
    gcpAnyAllowed ns project rules = .ok false := by
  induction rules with
  | nil => rfl
  | cons r rs ih =>
    have hr := h r (List.mem_cons_self r rs)
    unfold gcpAnyAllowed
    rw [hr, okBind]
    simpa using ih fun r' hr' => h r' (List.mem_cons_of_mem _ hr')

theorem awsAnyAllowed_first_true (ns : Str) (a : ARN) (pre post : List AWSRule)
    (r : AWSRule) (hpre : ∀ r' ∈ pre, r'.allows ns a = .ok false)
    (hr : r.allows ns a = .ok true) :
    awsAnyAllowed ns a (pre ++ r :: post) = .ok true := by
  induction pre with
  | nil =>
    rw [List.nil_append]
    unfold awsAnyAllowed
    rw [hr, okBind]
    rfl
  | cons q qs ih =>
    rw [List.cons_append]
    unfold awsAnyAllowed
    rw [hpre q (List.mem_cons_self q _), okBind]
    simpa using ih fun r' hr' => hpre r' (List.mem_cons_of_mem _ hr')

theorem gcpAnyAllowed_first_true (ns project : Str) (pre post : List gcpRule)
    (r : gcpRule) (hpre : ∀ r' ∈ pre, r'.allows ns project = .ok false)
    (hr : r.allows ns project = .ok true) :
    gcpAnyAllowed ns project (pre ++ r :: post) = .ok true := by
  induction pre with
  | nil =>
    rw [List.nil_append]
    unfold gcpAnyAllowed
    rw [hr, okBind]
    rfl
  | cons q qs ih =>
    rw [List.cons_append]
    unfold gcpAnyAllowed
    rw [hpre q (List.mem_cons_self q _), okBind]
    simpa using ih fun r' hr' => hpre r' (List.mem_cons_of_mem _ hr')

/-- C3: for every namespace and parseable resource descriptor, an empty
rule list allows; a non-empty rule list in which no rule matches denies —
for both the AWS and the GCP backend. -/
theorem claim_C3 :
    (∀ (ns s : Str) (a : ARN), arnParse s = .ok a →
      AWSRules.allow [] ns s = .ok true) ∧
    (∀ (rules : AWSRules) (ns s : Str) (a : ARN), rules ≠ [] →
      arnParse s = .ok a →
      (∀ r ∈ rules, r.allows ns a = .ok false) →
      AWSRules.allow rules ns s = .ok false) ∧
    (∀ ns project : Str, gcpRules.allow [] ns project = .ok true) ∧
    (∀ (rules : gcpRules) (ns project : Str), rules ≠ [] →
      (∀ r ∈ rules, r.allows ns project = .ok false) →
      gcpRules.allow rules ns project = .ok false) := by
  refine ⟨?_, ?_, ?_, ?_⟩
  · intro ns s a hparse
    unfold AWSRules.allow
    rw [hparse, okBind]
    rfl
  · intro rules ns s a hne hparse hall
    unfold AWSRules.allow
    rw [hparse, okBind, awsAnyAllowed_all_false ns a rules hall, okBind]
    cases rules with
    | nil => exact absurd rfl hne
    | cons r rs => rfl
  · intro ns project
    rfl
  · intro rules ns project hne hall
    unfold gcpRules.allow
    rw [gcpAnyAllowed_all_false ns project rules hall, okBind]
    cases rules with
    | nil => exact absurd rfl hne
    | cons r rs => rfl

/-- C3, witness: concrete empty and non-matching rule lists for both
backends. -/
theorem claim_C3_witness :
    AWSRules.allow []
      ['n'] ['a', 'r', 'n', ':', 'a', ':', 'b', ':', ':', '1', ':',
        'r', 'o', 'l', 'e', '/', 'x'] = .ok true ∧
    AWSRules.allow [⟨[['z']], [['*']], []⟩]
      ['n'] ['a', 'r', 'n', ':', 'a', ':', 'b', ':', ':', '1', ':',
        'r', 'o', 'l', 'e', '/', 'x'] = .ok false ∧
    gcpRules.allow [] ['n'] ['p'] = .ok true ∧
    gcpRules.allow [⟨[['z']], [['p']]⟩] ['n'] ['p'] = .ok false :=
  ⟨claim_C3.1 ['n'] _ ⟨['a'], ['b'], [], ['1'], ['r', 'o', 'l', 'e', '/', 'x']⟩ (by decide),
   claim_C3.2.1 _ ['n'] _ ⟨['a'], ['b'], [], ['1'], ['r', 'o', 'l', 'e', '/', 'x']⟩
     (by decide) (by decide) (by decide),
   claim_C3.2.2.1 ['n'] ['p'],
   claim_C3.2.2.2 _ ['n'] ['p'] (by decide) (by decide)⟩

/-- C5: for every non-empty rule list, `allow` returns the decision of the
first matching rule in list order, whatever the rules after it are — for
both the AWS and the GCP backend. -/
theorem claim_C5 :
    (∀ (pre post : List AWSRule) (r : AWSRule) (ns s : Str) (a : ARN),
      arnParse s = .ok a →
      (∀ r' ∈ pre, r'.allows ns a = .ok false) →
      r.allows ns a = .ok true →
      AWSRules.allow (pre ++ r :: post) ns s = .ok true) ∧
    (∀ (pre post : List gcpRule) (r : gcpRule) (ns project : Str),
      (∀ r' ∈ pre, r'.allows ns project = .ok false) →
      r.allows ns project = .ok true →
      gcpRules.allow (pre ++ r :: post) ns project = .ok true) := by
  constructor
  · intro pre post r ns s a hparse hpre hr
    unfold AWSRules.allow
    rw [hparse, okBind, awsAnyAllowed_first_true ns a pre post r hpre hr, okBind]
    rfl
  · intro pre post r ns project hpre hr
    unfold gcpRules.allow
    rw [gcpAnyAllowed_first_true ns project pre post r hpre hr, okBind]
    rfl

/-- C5, witness: the second rule matches, the first does not, and a
trailing rule is present but never consulted. -/
theorem claim_C5_witness :
    AWSRules.allow [⟨[['z']], [['*']], []⟩, ⟨[['*']], [['*']], []⟩, ⟨[], [], []⟩]
      ['n'] ['a', 'r', 'n', ':', 'a', ':', 'b', ':', ':', '1', ':',
        'r', 'o', 'l', 'e', '/', 'x'] = .ok true ∧
    gcpRules.allow [⟨[['z']], [['p']]⟩, ⟨[['*']], [['p']]⟩, ⟨[], []⟩]
      ['n'] ['p'] = .ok true :=
  ⟨claim_C5.1 [⟨[['z']], [['*']], []⟩] [⟨[], [], []⟩] ⟨[['*']], [['*']], []⟩
     ['n'] _ ⟨['a'], ['b'], [], ['1'], ['r', 'o', 'l', 'e', '/', 'x']⟩
     (by decide) (by decide) (by decide),
   claim_C5.2 [⟨[['z']], [['p']]⟩] [⟨[], []⟩] ⟨[['*']], [['p']]⟩ ['n'] ['p']
     (by decide) (by decide)⟩

theorem pureOkE {β : Type} (b : β) : (pure b : Except Unit β) = .ok b := rfl

theorem matchAny_no_error (ps : List Str) (s : Str)
    (h : ∀ p ∈ ps, ∃ b, goMatch p s = .ok b) :
    ∃ b, matchAny ps s = .ok b := by
  induction ps with
  | nil => exact ⟨false, rfl⟩
  | cons p ps ih =>
    obtain ⟨b, hb⟩ := h p (List.mem_cons_self p ps)
    unfold matchAny
    rw [hb]
    cases b with
    | true => exact ⟨true, rfl⟩
    | false => exact ih fun q hq => h q (List.mem_cons_of_mem _ hq)

theorem matchAny_ok_true_iff (ps : List Str) (s : Str)
    (h : ∀ p ∈ ps, ∃ b, goMatch p s = .ok b) :
    matchAny ps s = .ok true ↔ ∃ p ∈ ps, goMatch p s = .ok true := by
  induction ps with
  | nil => simp [matchAny]
  | cons p ps ih =>
    obtain ⟨b, hb⟩ := h p (List.mem_cons_self p ps)
    unfold matchAny
    rw [hb]
    cases b with
    | true =>
      simp only [true_iff]
      exact ⟨p, List.mem_cons_self p ps, hb⟩
    | false =>
      rw [ih fun q hq => h q (List.mem_cons_of_mem _ hq)]
      constructor
      · rintro ⟨q, hq, hqt⟩
        exact ⟨q, List.mem_cons_of_mem _ hq, hqt⟩
      · rintro ⟨q, hq, hqt⟩
        rcases List.mem_cons.mp hq with rfl | hq'
        · rw [hb] at hqt
          exact absurd hqt (by simp)
        · exact ⟨q, hq', hqt⟩

theorem matchesAccountID_iff (r : AWSRule) (aid : Str) :
    r.matchesAccountID aid = true ↔ (aid ∈ r.AccountIDs ∨ r.AccountIDs = []) := by
  unfold AWSRule.matchesAccountID
  simp [List.elem_iff, List.isEmpty_iff]

theorem awsRuleAllows_no_role (r : AWSRule) (ns : Str) (a : ARN)
    (h : List.isPrefixOf ['r', 'o', 'l', 'e', '/'] a.Resource = false) :
    r.allows ns a ≠ .ok true := by
  simp only [AWSRule.allows]
  cases hm : r.matchesNamespace ns with
  | error e =>
    cases e
    rw [errBind]
    simp
  | ok b =>
    rw [okBind]
    simp [h, pureOkE, okBind]

theorem awsAnyAllowed_true_exists (ns : Str) (a : ARN) (rules : List AWSRule)
    (h : awsAnyAllowed ns a rules = .ok true) :
    ∃ r ∈ rules, r.allows ns a = .ok true := by
  induction rules with
  | nil => simp [awsAnyAllowed] at h
  | cons r rs ih =>
    unfold awsAnyAllowed at h
    cases hr : r.allows ns a with
    | error e =>
      cases e
      rw [hr, errBind] at h
      simp at h
    | ok b =>
      rw [hr, okBind] at h
      cases b with
      | true => exact ⟨r, List.mem_cons_self r rs, hr⟩
      | false =>
        simp only [Bool.false_eq_true, if_false] at h
        obtain ⟨q, hq, hqt⟩ := ih h
        exact ⟨q, List.mem_cons_of_mem _ hq, hqt⟩

/-- C10: an AWS rule never allows a parseable ARN whose resource section
does not begin with `role/`; hence a non-empty rule list never returns
`true` for such an ARN, while the empty rule list still allows it. -/
theorem claim_C10 :
    (∀ (r : AWSRule) (ns : Str) (a : ARN),
      List.isPrefixOf ['r', 'o', 'l', 'e', '/'] a.Resource = false →
      r.allows ns a ≠ .ok true) ∧
    (∀ (rules : AWSRules) (ns s : Str) (a : ARN), rules ≠ [] →
      arnParse s = .ok a →
      List.isPrefixOf ['r', 'o', 'l', 'e', '/'] a.Resource = false →
      AWSRules.allow rules ns s ≠ .ok true) ∧
    (∀ (ns s : Str) (a : ARN), arnParse s = .ok a →
      AWSRules.allow [] ns s = .ok true) := by
  refine ⟨awsRuleAllows_no_role, ?_, ?_⟩
  · intro rules ns s a hne hparse hpre hok
    unfold AWSRules.allow at hok
    rw [hparse, okBind] at hok
    cases hany : awsAnyAllowed ns a rules with
    | error e =>
      cases e
      rw [hany, errBind] at hok
      simp at hok
    | ok found =>
      rw [hany, okBind] at hok
      have hval : (found || rules.isEmpty) = true := by
        have : (Except.ok (found || rules.isEmpty) : Except Unit Bool) = .ok true := hok
        simpa using this
      rcases Bool.or_eq_true _ _ |>.mp hval with hf | he
      · obtain ⟨q, hq, hqt⟩ := awsAnyAllowed_true_exists ns a rules (hf ▸ hany)
        exact awsRuleAllows_no_role q ns a hpre hqt
      · cases rules with
        | nil => exact hne rfl
        | cons r rs => simp at he
  · intro ns s a hparse
    unfold AWSRules.allow
    rw [hparse, okBind]
    rfl

/-- C10, witness: a user ARN is denied by a wildcard rule but allowed by
the empty rule list. -/
theorem claim_C10_witness :
    AWSRules.allow [⟨[['*']], [['*']], []⟩] ['n']
      ['a', 'r', 'n', ':', 'a', ':', 'b', ':', ':', '1', ':',
        'u', 's', 'e', 'r', '/', 'x'] ≠ .ok true ∧
    AWSRules.allow [] ['n']
      ['a', 'r', 'n', ':', 'a', ':', 'b', ':', ':', '1', ':',
        'u', 's', 'e', 'r', '/', 'x'] = .ok true :=
  ⟨claim_C10.2.1 _ ['n'] _ ⟨['a'], ['b'], [], ['1'], ['u', 's', 'e', 'r', '/', 'x']⟩
     (by decide) (by decide) (by decide),
   claim_C10.2.2 ['n'] _ ⟨['a'], ['b'], [], ['1'], ['u', 's', 'e', 'r', '/', 'x']⟩
     (by decide)⟩

/-- C4: an AWS rule matches exactly when the account ID passes (membership
or empty list as wildcard), the namespace matches some namespace glob, and
the resource is a `role/` resource whose role name matches some role-name
glob; empty namespace or role-name pattern lists never match. A GCP rule
matches exactly when the namespace matches some glob and the project is
literally listed; empty namespace patterns or an empty project list never
match. -/
theorem claim_C4 :
    (∀ (r : AWSRule) (ns : Str) (a : ARN),
      (∀ p ∈ r.NamespacePatterns, ∃ b, goMatch p ns = .ok b) →
      (∀ p ∈ r.RoleNamePatterns, ∃ b, goMatch p (a.Resource.drop 5) = .ok b) →
      (r.allows ns a = .ok true ↔
        ((a.AccountID ∈ r.AccountIDs ∨ r.AccountIDs = []) ∧
         (∃ p ∈ r.NamespacePatterns, goMatch p ns = .ok true) ∧
         List.isPrefixOf ['r', 'o', 'l', 'e', '/'] a.Resource = true ∧
         (∃ p ∈ r.RoleNamePatterns, goMatch p (a.Resource.drop 5) = .ok true)))) ∧
    (∀ (r : AWSRule) (ns : Str) (a : ARN), r.NamespacePatterns = [] →
      r.allows ns a ≠ .ok true) ∧
    (∀ (r : AWSRule) (ns : Str) (a : ARN), r.RoleNamePatterns = [] →
      r.allows ns a ≠ .ok true) ∧
    (∀ (r : gcpRule) (ns project : Str),
      (∀ p ∈ r.NamespacePatterns, ∃ b, goMatch p ns = .ok b) →
      (r.allows ns project = .ok true ↔
        ((∃ p ∈ r.NamespacePatterns, goMatch p ns = .ok true) ∧
         project ∈ r.Projects))) ∧
    (∀ (r : gcpRule) (ns project : Str), r.NamespacePatterns = [] →
      r.allows ns project = .ok false) ∧
    (∀ (r : gcpRule) (ns project : Str), r.Projects = [] →
      r.allows ns project ≠ .ok true) := by
  refine ⟨?_, ?_, ?_, ?_, ?_, ?_⟩
  · intro r ns a hnsok hroleok
    obtain ⟨b1, hb1⟩ := matchAny_no_error r.NamespacePatterns ns hnsok
    have hNs : b1 = true ↔ ∃ p ∈ r.NamespacePatterns, goMatch p ns = .ok true := by
      have h2 := matchAny_ok_true_iff r.NamespacePatterns ns hnsok
      rw [hb1] at h2
      simpa using h2
    simp only [AWSRule.allows, AWSRule.matchesNamespace]
    rw [hb1, okBind]
    cases hpre : List.isPrefixOf ['r', 'o', 'l', 'e', '/'] a.Resource with
    | false =>
      simp only [hpre, Bool.false_eq_true, if_false]
      rw [pureOkE, okBind, pureOkE]
      simp
    | true =>
      obtain ⟨b2, hb2⟩ :=
        matchAny_no_error r.RoleNamePatterns (a.Resource.drop 5) hroleok
      have hRole : b2 = true ↔
          ∃ p ∈ r.RoleNamePatterns, goMatch p (a.Resource.drop 5) = .ok true := by
        have h2 := matchAny_ok_true_iff r.RoleNamePatterns (a.Resource.drop 5) hroleok
        rw [hb2] at h2
        simpa using h2
      simp only [hpre, if_true, AWSRule.matchesRoleName]
      rw [hb2, okBind, pureOkE]
      simp only [Except.ok.injEq, Bool.and_eq_true]
      rw [matchesAccountID_iff, hNs, hRole]
      tauto
  · intro r ns a hemp
    simp only [AWSRule.allows, AWSRule.matchesNamespace, hemp]
    rw [show matchAny [] ns = (.ok false : Except Unit Bool) from rfl, okBind]
    split
    · cases hm : r.matchesRoleName (a.Resource.drop 5) with
      | error e =>
        cases e
        rw [errBind]
        simp
      | ok b2 =>
        rw [okBind, pureOkE]
        simp
    · rw [pureOkE, okBind, pureOkE]
      simp
  · intro r ns a hemp
    simp only [AWSRule.allows]
    cases hm : r.matchesNamespace ns with
    | error e =>
      cases e
      rw [errBind]
      simp
    | ok b1 =>
      rw [okBind]
      split
      · simp only [AWSRule.matchesRoleName, hemp]
        rw [show matchAny [] (a.Resource.drop 5) = (.ok false : Except Unit Bool) from rfl,
          okBind, pureOkE]
        simp
      · rw [pureOkE, okBind, pureOkE]
        simp
  · intro r ns project hnsok
    obtain ⟨b1, hb1⟩ := matchAny_no_error r.NamespacePatterns ns hnsok
    have hNs : b1 = true ↔ ∃ p ∈ r.NamespacePatterns, goMatch p ns = .ok true := by
      have h2 := matchAny_ok_true_iff r.NamespacePatterns ns hnsok
      rw [hb1] at h2
      simpa using h2
    have hProj : r.Projects.contains project = true ↔ project ∈ r.Projects :=
      List.elem_iff
    simp only [gcpRule.allows, gcpRule.matchesNamespace, gcpRule.matchesProject]
    rw [hb1, okBind, pureOkE]
    simp only [Except.ok.injEq, Bool.and_eq_true]
    rw [hNs, hProj]
  · intro r ns project hemp
    simp only [gcpRule.allows, gcpRule.matchesNamespace, hemp]
    rfl
  · intro r ns project hemp
    simp only [gcpRule.allows, gcpRule.matchesProject, hemp]
    cases hm : r.matchesNamespace ns with
    | error e =>
      cases e
      rw [errBind]
      simp
    | ok b =>
      rw [okBind, pureOkE]
      simp

/-- C4, witness: a fully matching AWS rule allows a concrete role ARN, and
a GCP rule with no namespace patterns returns false. -/
theorem claim_C4_witness :
    AWSRule.allows ⟨[['t', '*']], [['f']], [['1']]⟩ ['t', 'x']
      ⟨['a'], ['b'], [], ['1'], ['r', 'o', 'l', 'e', '/', 'f']⟩ = .ok true ∧
    gcpRule.allows ⟨[], [['p']]⟩ ['n'] ['p'] = .ok false :=
  ⟨(claim_C4.1 ⟨[['t', '*']], [['f']], [['1']]⟩ ['t', 'x']
      ⟨['a'], ['b'], [], ['1'], ['r', 'o', 'l', 'e', '/', 'f']⟩
      (by decide) (by decide)).mpr
      ⟨Or.inl (by decide), ⟨['t', '*'], by decide, by decide⟩, by decide,
        ⟨['f'], by decide, by decide⟩⟩,
   claim_C4.2.2.2.2.1 ⟨[], [['p']]⟩ ['n'] ['p'] rfl⟩

/-! ## Claims about garbage collection -/

theorem removeFromVault_keys (fail : VaultObjKind → Str → Bool)
    (pfx backend ns nm : Str) :
    ∀ op ∈ (removeFromVault fail pfx backend ns nm).1,
      op.key = makeKey pfx backend ns nm := by
  intro op hop
  unfold removeFromVault at hop
  split at hop
  · simp at hop
    rw [hop]
  · split at hop
    · simp at hop
      rcases hop with rfl | rfl <;> rfl
    · split at hop
      · simp at hop
        rcases hop with rfl | rfl | rfl <;> rfl
      · simp at hop
        rcases hop with rfl | rfl | rfl <;> rfl

theorem removeFromVault_noFail (fail : VaultObjKind → Str → Bool)
    (noFail : ∀ kk s, fail kk s = false) (pfx backend ns nm : Str) :
    removeFromVault fail pfx backend ns nm =
      ([⟨.backendRole, makeKey pfx backend ns nm⟩,
        ⟨.kubeAuthRole, makeKey pfx backend ns nm⟩,
        ⟨.policy, makeKey pfx backend ns nm⟩], true) := by
  simp [removeFromVault, noFail]

theorem gc_ops_sound (adm : Str → Str → List (Str × Str) → Bool)
    (fail : VaultObjKind → Str → Bool) (sas : List KubeServiceAccount)
    (pfx backend : Str) (keys : List Str) :
    ∀ op ∈ (garbageCollect adm fail sas pfx backend keys).1,
      ∃ ns nm, parseKey pfx backend op.key = (ns, nm, true) ∧
        op.key ∈ keys ∧ hasServiceAccount adm sas ns nm = false := by
  induction keys with
  | nil => intro op hop; simp [garbageCollect] at hop
  | cons k ks ih =>
    intro op hop
    unfold garbageCollect at hop
    by_cases hpk : (parseKey pfx backend k).2.2 = true
    · rw [if_pos hpk] at hop
      by_cases hhas :
          hasServiceAccount adm sas (parseKey pfx backend k).1
            (parseKey pfx backend k).2.1 = true
      · rw [if_pos hhas] at hop
        obtain ⟨ns, nm, h1, h2, h3⟩ := ih op hop
        exact ⟨ns, nm, h1, List.mem_cons_of_mem _ h2, h3⟩
      · rw [if_neg hhas] at hop
        have hkey : parseKey pfx backend k =
            ((parseKey pfx backend k).1, (parseKey pfx backend k).2.1, true) := by
          rw [← hpk]
        have hmk : k = makeKey pfx backend (parseKey pfx backend k).1
            (parseKey pfx backend k).2.1 :=
          parseKey_inv _ _ _ _ _ hkey
        split at hop
        · rcases List.mem_append.mp hop with hmem | hmem
          · refine ⟨(parseKey pfx backend k).1, (parseKey pfx backend k).2.1,
              ?_, ?_, ?_⟩
            · rw [removeFromVault_keys fail pfx backend _ _ op hmem, ← hmk]
              exact hkey
            · rw [removeFromVault_keys fail pfx backend _ _ op hmem, ← hmk]
              exact List.mem_cons_self k ks
            · exact Bool.not_eq_true _ |>.mp hhas
          · obtain ⟨ns, nm, h1, h2, h3⟩ := ih op hmem
            exact ⟨ns, nm, h1, List.mem_cons_of_mem _ h2, h3⟩
        · refine ⟨(parseKey pfx backend k).1, (parseKey pfx backend k).2.1,
            ?_, ?_, ?_⟩
          · rw [removeFromVault_keys fail pfx backend _ _ op hop, ← hmk]
            exact hkey
          · rw [removeFromVault_keys fail pfx backend _ _ op hop, ← hmk]
            exact List.mem_cons_self k ks
          · exact Bool.not_eq_true _ |>.mp hhas
    · rw [if_neg hpk] at hop
      obtain ⟨ns, nm, h1, h2, h3⟩ := ih op hop
      exact ⟨ns, nm, h1, List.mem_cons_of_mem _ h2, h3⟩

theorem gc_removes (adm : Str → Str → List (Str × Str) → Bool)
    (fail : VaultObjKind → Str → Bool) (sas : List KubeServiceAccount)
    (pfx backend : Str) (keys : List Str) (k : Str) (ns nm : Str)
    (noFail : ∀ kk s, fail kk s = false) (hk : k ∈ keys)
    (hpr : parseKey pfx backend k = (ns, nm, true))
    (hhas : hasServiceAccount adm sas ns nm = false) :
    (⟨.backendRole, k⟩ : VaultOp) ∈ (garbageCollect adm fail sas pfx backend keys).1 ∧
    (⟨.kubeAuthRole, k⟩ : VaultOp) ∈ (garbageCollect adm fail sas pfx backend keys).1 ∧
    (⟨.policy, k⟩ : VaultOp) ∈ (garbageCollect adm fail sas pfx backend keys).1 := by
  induction keys with
  | nil => simp at hk
  | cons k' ks ih =>
    unfold garbageCollect
    rcases List.mem_cons.mp hk with rfl | hk'
    · rw [hpr]
      simp only [if_true]
      rw [hhas]
      simp only [Bool.false_eq_true, if_false]
      rw [removeFromVault_noFail fail noFail]
      have hmk : k = makeKey pfx backend ns nm := parseKey_inv _ _ _ _ _ hpr
      simp only [← hmk]
      refine ⟨?_, ?_, ?_⟩ <;>
        exact List.mem_append.mpr (Or.inl (by simp))
    · have ihh := ih hk'
      by_cases hpk : (parseKey pfx backend k').2.2 = true
      · rw [if_pos hpk]
        by_cases hhas' :
            hasServiceAccount adm sas (parseKey pfx backend k').1
              (parseKey pfx backend k').2.1 = true
        · rw [if_pos hhas']
          exact ihh
        · rw [if_neg hhas']
          rw [removeFromVault_noFail fail noFail]
          simp only
          exact ⟨List.mem_append.mpr (Or.inr ihh.1),
            List.mem_append.mpr (Or.inr ihh.2.1),
            List.mem_append.mpr (Or.inr ihh.2.2)⟩
      · rw [if_neg hpk]
        exact ihh

/-- C6: in a garbage-collection sweep with no transport failures, a listed
key that does not parse as owned is left untouched; an owned key with no
live, admitted service account has its full triple (backend role,
kubernetes auth role, policy) removed; an owned key whose service account
exists and is admitted is left untouched. -/
theorem claim_C6 (adm : Str → Str → List (Str × Str) → Bool)
    (fail : VaultObjKind → Str → Bool) (sas : List KubeServiceAccount)
    (pfx backend : Str) (keys : List Str) (k : Str)
    (noFail : ∀ kk s, fail kk s = false) (hk : k ∈ keys) :
    ((parseKey pfx backend k).2.2 = false →
      ∀ op ∈ (garbageCollect adm fail sas pfx backend keys).1, op.key ≠ k) ∧
    (∀ ns nm, parseKey pfx backend k = (ns, nm, true) →
      hasServiceAccount adm sas ns nm = false →
      ((⟨.backendRole, k⟩ : VaultOp) ∈ (garbageCollect adm fail sas pfx backend keys).1 ∧
       (⟨.kubeAuthRole, k⟩ : VaultOp) ∈ (garbageCollect adm fail sas pfx backend keys).1 ∧
       (⟨.policy, k⟩ : VaultOp) ∈ (garbageCollect adm fail sas pfx backend keys).1)) ∧
    (∀ ns nm, parseKey pfx backend k = (ns, nm, true) →
      hasServiceAccount adm sas ns nm = true →
      ∀ op ∈ (garbageCollect adm fail sas pfx backend keys).1, op.key ≠ k) := by
  refine ⟨?_, ?_, ?_⟩
  · intro hpf op hop hkop
    obtain ⟨ns, nm, h1, -, -⟩ := gc_ops_sound adm fail sas pfx backend keys op hop
    rw [← hkop, h1] at hpf
    simp at hpf
  · intro ns nm hpr hhas
    exact gc_removes adm fail sas pfx backend keys k ns nm noFail hk hpr hhas
  · intro ns nm hpr hhas op hop hkop
    obtain ⟨ns', nm', h1, -, h3⟩ := gc_ops_sound adm fail sas pfx backend keys op hop
    rw [hkop, hpr] at h1
    obtain ⟨rfl, rfl⟩ : ns = ns' ∧ nm = nm' := by
      have e1 := congrArg Prod.fst h1
      have e2 := congrArg (fun q => q.2.1) h1
      exact ⟨e1, e2⟩
    rw [h3] at hhas
    exact Bool.false_ne_true hhas

/-- C6, witness: a sweep over three listed keys — a live admitted key, an
orphaned key, and an unparseable key — removes exactly the orphan's full
triple. -/
theorem claim_C6_witness :
    ((⟨.backendRole, ['v', '_', 'w', '_', 'b', '_', 't']⟩ : VaultOp) ∈
      (garbageCollect (fun _ _ _ => true) (fun _ _ => false) [⟨['a'], ['s'], []⟩]
        ['v'] ['w']
        [['v', '_', 'w', '_', 'a', '_', 's'], ['v', '_', 'w', '_', 'b', '_', 't'],
          ['z', 'z', 'z']]).1 ∧
     (⟨.kubeAuthRole, ['v', '_', 'w', '_', 'b', '_', 't']⟩ : VaultOp) ∈
      (garbageCollect (fun _ _ _ => true) (fun _ _ => false) [⟨['a'], ['s'], []⟩]
        ['v'] ['w']
        [['v', '_', 'w', '_', 'a', '_', 's'], ['v', '_', 'w', '_', 'b', '_', 't'],
          ['z', 'z', 'z']]).1 ∧
     (⟨.policy, ['v', '_', 'w', '_', 'b', '_', 't']⟩ : VaultOp) ∈
      (garbageCollect (fun _ _ _ => true) (fun _ _ => false) [⟨['a'], ['s'], []⟩]
        ['v'] ['w']
        [['v', '_', 'w', '_', 'a', '_', 's'], ['v', '_', 'w', '_', 'b', '_', 't'],
          ['z', 'z', 'z']]).1) ∧
    (⟨.backendRole, ['v', '_', 'w', '_', 'b', '_', 't']⟩ : VaultOp).key ≠
      ['z', 'z', 'z'] ∧
    (⟨.backendRole, ['v', '_', 'w', '_', 'b', '_', 't']⟩ : VaultOp).key ≠
      ['v', '_', 'w', '_', 'a', '_', 's'] :=
  ⟨(claim_C6 (fun _ _ _ => true) (fun _ _ => false) [⟨['a'], ['s'], []⟩]
      ['v'] ['w']
      [['v', '_', 'w', '_', 'a', '_', 's'], ['v', '_', 'w', '_', 'b', '_', 't'],
        ['z', 'z', 'z']]
      ['v', '_', 'w', '_', 'b', '_', 't'] (fun _ _ => rfl) (by decide)).2.1
      ['b'] ['t'] (by decide) (by decide),
   (claim_C6 (fun _ _ _ => true) (fun _ _ => false) [⟨['a'], ['s'], []⟩]
      ['v'] ['w']
      [['v', '_', 'w', '_', 'a', '_', 's'], ['v', '_', 'w', '_', 'b', '_', 't'],
        ['z', 'z', 'z']]
      ['z', 'z', 'z'] (fun _ _ => rfl) (by decide)).1 (by decide)
      ⟨.backendRole, ['v', '_', 'w', '_', 'b', '_', 't']⟩ (by decide),
   (claim_C6 (fun _ _ _ => true) (fun _ _ => false) [⟨['a'], ['s'], []⟩]
      ['v'] ['w']
      [['v', '_', 'w', '_', 'a', '_', 's'], ['v', '_', 'w', '_', 'b', '_', 't'],
        ['z', 'z', 'z']]
      ['v', '_', 'w', '_', 'a', '_', 's'] (fun _ _ => rfl) (by decide)).2.2
      ['a'] ['s'] (by decide) (by decide)
      ⟨.backendRole, ['v', '_', 'w', '_', 'b', '_', 't']⟩ (by decide)⟩
